import Mathlib

set_option maxHeartbeats 1000000

/-!
Verification development for the `sensitive` library: guarded containers for
in-memory secrets.  The definitions below are a shallow embedding of the
repository's Rust sources:

* the atomically reference-counted access guard (`src/guard.rs`, `src/refs.rs`):
  a 64-bit state word holding an ACC flag (top bit) and a REF field (low bits),
  together with the page-protection transitions (`lock`/`unlock`/`unlock_mut`)
  applied to the held value;
* the constant-time slice comparison of the guarded vector and string
  (`src/vec.rs` `Vec::eq_slice`, `src/string.rs` `String::eq_slice`);
* the sensitive allocator (`src/alloc.rs`): `allocate`, `deallocate`, `shrink`
  over a guarded page frame;
* the page-range views (`src/pages.rs` `Pages::pages`, `Allocation::pages`);
* the normalized string `pop`/`push` operations (`src/string.rs`).

Machine integers are embedded as `Nat` with explicit `% 2 ^ 64` where the Rust
code can wrap.  Debug assertions (`debug_assert!`) are modelled as preconditions
of a completed operation: an operation that trips one aborts and is not counted
as completed.  Fallible operations return `Except`/`Option`.
-/

namespace Sensitive

/-- The modulus of the 64-bit machine word (`usize` on the target platform). -/
def WORD : Nat := 2 ^ 64

namespace Guard

/-- Constant `ACC: usize = usize::MAX / 2 + 1` — the accessibility flag (top bit). -/
def ACC : Nat := (WORD - 1) / 2 + 1

/-- Constant `REF: usize = !ACC` — the reference-count field mask. -/
def REF : Nat := (WORD - 1) ^^^ ACC

/-- Constant `MUT: usize = usize::MAX & REF` — the exclusive-borrow sentinel. -/
def MUT : Nat := (WORD - 1) &&& REF

/-- Constant `MAX: usize = (usize::MAX & REF) - 1` — the shared-borrow cap. -/
def MAX : Nat := (WORD - 1) &&& REF - 1

/-- Protection state of the held value, as driven by the three `Protectable`
transitions: `lock()` → no access, `unlock()` → read only,
`unlock_mut()` → read write. -/
inductive Prot
  | noAccess
  | readOnly
  | readWrite
deriving DecidableEq

/-- Guard state: the atomic state word together with the protection most
recently applied to the held value (initially locked). -/
abbrev GState := Nat × Prot

/-- Why a guard operation did not complete: `overflow` is the
`assert!(refs & Self::REF < Self::MAX)` panic, `spin` is the waiter loop that
cannot terminate without a concurrent unlocker, `underflow` and `illegal` are
the `debug_assert!` checks in `release`, `acquire_mut` and `release_mut`. -/
inductive StepErr
  | overflow
  | spin
  | underflow
  | illegal
deriving DecidableEq

/-- Shared acquire `Guard::acquire` (`src/guard.rs:30-51`): fetch-add 1 on the
state word, panic unless the previously observed REF field is below `MAX`;
the first acquirer (previous word 0) unlocks the value and or-sets ACC, later
acquirers require ACC to be observed set. -/
def acquireE (st : GState) : Except StepErr GState :=
  let refs := st.1
  if MAX ≤ refs &&& REF then .error .overflow
  else if refs = 0 then .ok (((refs + 1) % WORD) ||| ACC, Prot.readOnly)
  else if refs &&& ACC ≠ 0 then .ok ((refs + 1) % WORD, st.2)
  else .error .spin

/-- Shared release `Guard::release` (`src/guard.rs:53-87`): a first
compare-update clears ACC when the REF field is 1 and otherwise decrements;
when the previously observed REF field was 1, a second compare-update either
locks the value and stores 0, or (after a racing reacquisition) unlocks again
and re-sets ACC.  Sequentially the second update always sees the word 1. -/
def releaseE (st : GState) : Except StepErr GState :=
  let refs := st.1
  if refs &&& REF = 1 then
    if refs &&& ACC = 0 then .error .illegal
    else
      let down := refs &&& REF
      if down = 1 then .ok (0, Prot.noAccess)
      else if down &&& ACC ≠ 0 then .error .illegal
      else .ok ((down - 1) ||| ACC, Prot.readOnly)
  else if refs &&& REF = 0 then .error .underflow
  else .ok (refs - 1, st.2)

/-- Exclusive acquire `Guard::acquire_mut` (`src/guard.rs:89-93`): swap the word to `ACC | MUT`
(the swapped-out word must be 0) and apply `unlock_mut()`. -/
def acquireMutE (st : GState) : Except StepErr GState :=
  if st.1 = 0 then .ok (ACC ||| MUT, Prot.readWrite) else .error .illegal

/-- Exclusive release `Guard::release_mut` (`src/guard.rs:95-99`): swap the word to 0 (the
swapped-out word must be `ACC | MUT`) and apply `lock()`. -/
def releaseMutE (st : GState) : Except StepErr GState :=
  if st.1 = ACC ||| MUT then .ok (0, Prot.noAccess) else .error .illegal

/-- States of the guard reachable from the initial state (word 0, value
locked) by sequences of completed operations. -/
inductive Reachable : GState → Prop
  | init : Reachable (0, Prot.noAccess)
  | acq {s t : GState} : Reachable s → acquireE s = .ok t → Reachable t
  | rel {s t : GState} : Reachable s → releaseE s = .ok t → Reachable t
  | acqMut {s t : GState} : Reachable s → acquireMutE s = .ok t → Reachable t
  | relMut {s t : GState} : Reachable s → releaseMutE s = .ok t → Reachable t

theorem ACC_eq : ACC = 2 ^ 63 := by decide

theorem REF_eq : REF = 2 ^ 63 - 1 := by decide

theorem MUT_eq : MUT = 2 ^ 63 - 1 := by decide

theorem MAX_eq : MAX = 2 ^ 63 - 2 := by decide

theorem and_REF_low {n : Nat} (h : n < 2 ^ 63) : n &&& REF = n := by
  rw [REF_eq]
  exact Nat.and_pow_two_sub_one_of_lt_two_pow h

theorem and_REF_acc {n : Nat} (h : n < 2 ^ 63) : (ACC + n) &&& REF = n := by
  rw [REF_eq, ACC_eq, Nat.and_pow_two_sub_one_eq_mod, Nat.add_mod_left,
    Nat.mod_eq_of_lt h]

theorem and_ACC_low {n : Nat} (h : n < 2 ^ 63) : n &&& ACC = 0 := by
  rw [ACC_eq, Nat.and_two_pow, Nat.testBit_lt_two_pow h]
  simp

theorem and_ACC_acc {n : Nat} (h : n < 2 ^ 63) : (ACC + n) &&& ACC = ACC := by
  rw [ACC_eq, Nat.and_two_pow, Nat.testBit_two_pow_add_eq,
    Nat.testBit_lt_two_pow h]
  simp

theorem or_ACC {n : Nat} (h : n < 2 ^ 63) : n ||| ACC = ACC + n := by
  rw [ACC_eq]
  have h1 : 2 ^ 63 + n = 2 ^ 63 * 1 + n := by ring_nf
  rw [h1, Nat.mul_add_lt_is_or h, Nat.mul_one, Nat.lor_comm]

theorem acquireE_zero (p : Prot) :
    acquireE (0, p) = .ok (ACC + 1, Prot.readOnly) := by
  have h1 : (0 : Nat) &&& REF = 0 := Nat.zero_and REF
  have h2 : ¬ MAX ≤ (0 : Nat) &&& REF := by rw [h1, MAX_eq]; omega
  have h3 : ((0 : Nat) + 1) % WORD = 1 := by unfold WORD; omega
  simp only [acquireE, h2, if_false, if_true, h3, or_ACC (show 1 < 2 ^ 63 by omega)]

theorem acquireE_acc {n : Nat} (p : Prot) (h2 : n ≤ MUT) :
    acquireE (ACC + n, p) =
      if MAX ≤ n then .error .overflow else .ok (ACC + (n + 1), p) := by
  have hlt : n < 2 ^ 63 := by rw [MUT_eq] at h2; omega
  have hne : ACC + n ≠ 0 := by rw [ACC_eq]; omega
  have hacc : (ACC + n) &&& ACC = ACC := and_ACC_acc hlt
  have haccne : ACC ≠ 0 := by rw [ACC_eq]; omega
  simp only [acquireE, and_REF_acc hlt]
  by_cases hM : MAX ≤ n
  · simp [hM]
  · have hmod : (ACC + n + 1) % WORD = ACC + (n + 1) := by
      rw [ACC_eq, MAX_eq] at *
      unfold WORD
      omega
    simp [hM, hne, hacc, haccne, hmod]

theorem releaseE_zero (p : Prot) : releaseE (0, p) = .error .underflow := by
  have h1 : (0 : Nat) &&& REF = 0 := Nat.zero_and REF
  simp [releaseE, h1]

theorem releaseE_acc {n : Nat} (p : Prot) (h1 : 1 ≤ n) (h2 : n ≤ MUT) :
    releaseE (ACC + n, p) =
      if n = 1 then .ok (0, Prot.noAccess) else .ok (ACC + (n - 1), p) := by
  have hlt : n < 2 ^ 63 := by rw [MUT_eq] at h2; omega
  have hacc : (ACC + n) &&& ACC = ACC := and_ACC_acc hlt
  have haccne : ACC ≠ 0 := by rw [ACC_eq]; omega
  simp only [releaseE, and_REF_acc hlt]
  by_cases hone : n = 1
  · subst hone
    simp [hacc, haccne]
  · have hz : n ≠ 0 := by omega
    have hsub : ACC + n - 1 = ACC + (n - 1) := by omega
    simp [hone, hz, hsub]

theorem acquireMutE_zero (p : Prot) :
    acquireMutE (0, p) = .ok (ACC + MUT, Prot.readWrite) := by
  have h : MUT < 2 ^ 63 := by rw [MUT_eq]; omega
  have he : ACC ||| MUT = ACC + MUT := by rw [Nat.lor_comm]; exact or_ACC h
  simp [acquireMutE, he]

theorem releaseMutE_acc (p : Prot) :
    releaseMutE (ACC + MUT, p) = .ok (0, Prot.noAccess) := by
  have h : MUT < 2 ^ 63 := by rw [MUT_eq]; omega
  have he : ACC ||| MUT = ACC + MUT := by rw [Nat.lor_comm]; exact or_ACC h
  simp [releaseMutE, he]

/-- Characterisation of the guard words reachable by completed operations:
either no borrow is in flight (word 0) or the word is `ACC` plus a non-zero
REF field of at most the `MUT` sentinel. -/
def GoodWord (s : Nat) : Prop :=
  s = 0 ∨ ∃ n, 1 ≤ n ∧ n ≤ MUT ∧ s = ACC + n

theorem reachable_good {st : GState} (h : Reachable st) : GoodWord st.1 := by
  induction h with
  | init => exact Or.inl rfl
  | acq hr heq ih =>
    rename_i s t
    obtain ⟨w, p⟩ := s
    rcases ih with h0 | ⟨n, h1, h2, hw⟩
    · simp only at h0
      subst h0
      rw [acquireE_zero] at heq
      cases heq
      exact Or.inr ⟨1, Nat.le_refl 1, by rw [MUT_eq]; omega, rfl⟩
    · simp only at hw
      subst hw
      rw [acquireE_acc p h2] at heq
      by_cases hM : MAX ≤ n
      · simp [hM] at heq
      · simp only [hM, if_false] at heq
        cases heq
        refine Or.inr ⟨n + 1, by omega, ?_, rfl⟩
        rw [MUT_eq]
        rw [MAX_eq, MUT_eq] at *
        omega
  | rel hr heq ih =>
    rename_i s t
    obtain ⟨w, p⟩ := s
    rcases ih with h0 | ⟨n, h1, h2, hw⟩
    · simp only at h0
      subst h0
      rw [releaseE_zero] at heq
      cases heq
    · simp only at hw
      subst hw
      rw [releaseE_acc p h1 h2] at heq
      by_cases hone : n = 1
      · simp only [hone, if_true] at heq
        cases heq
        exact Or.inl rfl
      · simp only [hone, if_false] at heq
        cases heq
        exact Or.inr ⟨n - 1, by omega, by omega, rfl⟩
  | acqMut hr heq ih =>
    rename_i s t
    obtain ⟨w, p⟩ := s
    by_cases h0 : w = 0
    · subst h0
      rw [acquireMutE_zero] at heq
      cases heq
      exact Or.inr ⟨MUT, by rw [MUT_eq]; omega, Nat.le_refl MUT, rfl⟩
    · simp [acquireMutE, h0] at heq
  | relMut hr heq ih =>
    rename_i s t
    obtain ⟨w, p⟩ := s
    simp only [releaseMutE] at heq
    by_cases h0 : w = ACC ||| MUT
    · simp only [h0, if_true] at heq
      cases heq
      exact Or.inl rfl
    · simp [h0] at heq

/-- C1: every guard state word reachable from the initial state 0 by completed
shared acquires, shared releases, exclusive acquires and exclusive releases
satisfies: REF field 0 implies ACC clear; ACC set implies REF field positive;
REF field equal to the MUT sentinel implies ACC set. -/
theorem c1_guard_state_invariant {st : GState} (h : Reachable st) :
    (st.1 &&& REF = 0 → st.1 &&& ACC = 0) ∧
    (st.1 &&& ACC ≠ 0 → 0 < st.1 &&& REF) ∧
    (st.1 &&& REF = MUT → st.1 &&& ACC ≠ 0) := by
  rcases reachable_good h with h0 | ⟨n, h1, h2, hw⟩
  · rw [h0]
    refine ⟨fun _ => Nat.zero_and ACC, fun hc => ?_, fun hm => ?_⟩
    · exact absurd (Nat.zero_and ACC) hc
    · rw [Nat.zero_and] at hm
      rw [MUT_eq] at hm
      omega
  · have hlt : n < 2 ^ 63 := by rw [MUT_eq] at h2; omega
    rw [hw, and_REF_acc hlt, and_ACC_acc hlt]
    have haccne : ACC ≠ 0 := by rw [ACC_eq]; omega
    exact ⟨fun hz => absurd hz (by omega), fun _ => h1, fun _ => haccne⟩

/-- Witness for C1 at the concrete reachable state after one shared acquire. -/
theorem c1_guard_state_invariant_witness :
    ((ACC + 1) &&& REF = 0 → (ACC + 1) &&& ACC = 0) ∧
    ((ACC + 1) &&& ACC ≠ 0 → 0 < (ACC + 1) &&& REF) ∧
    ((ACC + 1) &&& REF = MUT → (ACC + 1) &&& ACC ≠ 0) :=
  c1_guard_state_invariant
    (Reachable.acq Reachable.init (acquireE_zero Prot.noAccess))

/-- One shared-borrow operation: `true` is a completed `Guard::acquire`,
`false` a completed `Guard::release`. -/
def stepB (op : Bool) (st : GState) : Except StepErr GState :=
  if op then acquireE st else releaseE st

/-- Run a sequence of shared-borrow operations from a given guard state. -/
def runFrom : GState → List Bool → Except StepErr GState
  | st, [] => .ok st
  | st, op :: rest =>
    match stepB op st with
    | .ok st2 => runFrom st2 rest
    | .error e => .error e

/-- Run a sequence of shared-borrow operations from the initial guard state
(word 0, held value locked). -/
def run (ops : List Bool) : Except StepErr GState :=
  runFrom (0, Prot.noAccess) ops

/-- Guard state holding a given number of shared borrows: word 0 and locked
when the count is 0, otherwise `ACC` plus the count with the value read-only. -/
def enc (c : Nat) : GState :=
  if c = 0 then (0, Prot.noAccess) else (ACC + c, Prot.readOnly)

theorem stepB_acquire {c : Nat} (hc : c < MAX) :
    stepB true (enc c) = .ok (enc (c + 1)) := by
  by_cases h0 : c = 0
  · subst h0
    simp [stepB, enc, acquireE_zero]
  · have hMUT : c ≤ MUT := by rw [MAX_eq] at hc; rw [MUT_eq]; omega
    simp only [stepB, enc, h0, if_false, if_true]
    rw [acquireE_acc Prot.readOnly hMUT]
    simp [Nat.not_le.mpr hc]

theorem stepB_release {c : Nat} (h1 : 1 ≤ c) (hc : c ≤ MUT) :
    stepB false (enc c) = .ok (enc (c - 1)) := by
  have h0 : c ≠ 0 := by omega
  simp only [stepB, enc, h0, if_false, ite_false, Bool.false_eq_true]
  rw [releaseE_acc Prot.readOnly h1 hc]
  by_cases hone : c = 1
  · simp [hone, enc]
  · have : c - 1 ≠ 0 := by omega
    simp [hone, enc, this]

theorem runFrom_enc (ops : List Bool) : ∀ c : Nat,
    c + ops.count true ≤ MAX →
    (∀ p q, ops = p ++ false :: q → p.count false < c + p.count true) →
    runFrom (enc c) ops = .ok (enc (c + ops.count true - ops.count false)) := by
  induction ops with
  | nil =>
    intro c _ _
    simp [runFrom]
  | cons op rest ih =>
    intro c hc hp
    cases op
    · have hcge : 1 ≤ c := by
        have := hp [] rest rfl
        simpa using this
      have hcMUT : c ≤ MUT := by
        rw [MUT_eq]
        rw [MAX_eq] at hc
        omega
      have hstep := stepB_release hcge hcMUT
      have hrest := ih (c - 1)
        (by
          have hcnt : (false :: rest).count true = rest.count true := by
            simp [List.count_cons]
          rw [hcnt] at hc
          omega)
        (by
          intro p q hpq
          have := hp (false :: p) q (by rw [hpq, List.cons_append])
          simp [List.count_cons] at this
          omega)
      simp only [runFrom, hstep, hrest]
      have hcnt : (false :: rest).count true = rest.count true ∧
          (false :: rest).count false = rest.count false + 1 := by
        constructor <;> simp [List.count_cons]
      rw [hcnt.1, hcnt.2]
      congr 2
      omega
    · have hcnt : (true :: rest).count true = rest.count true + 1 ∧
          (true :: rest).count false = rest.count false := by
        constructor <;> simp [List.count_cons]
      have hclt : c < MAX := by
        rw [hcnt.1] at hc
        omega
      have hstep := stepB_acquire hclt
      have hrest := ih (c + 1)
        (by rw [hcnt.1] at hc; omega)
        (by
          intro p q hpq
          have := hp (true :: p) q (by rw [hpq, List.cons_append])
          simp [List.count_cons] at this
          omega)
      simp only [runFrom, hstep, hrest]
      rw [hcnt.1, hcnt.2]
      congr 2
      omega

/-- C2: starting from the initial guard state (word 0, value locked), any
sequence of N completed shared acquires and N matching shared releases, with
1 ≤ N ≤ MAX and releases never outnumbering acquires in any prefix, ends
with the state word 0 and with lock() as the last protection transition
(the held value is locked). -/
theorem c2_balanced_borrows (ops : List Bool) (N : Nat)
    (hA : ops.count true = N) (hR : ops.count false = N)
    (hN1 : 1 ≤ N) (hN2 : N ≤ MAX)
    (hpre : ∀ n, n ≤ ops.length →
      (ops.take n).count false ≤ (ops.take n).count true) :
    run ops = .ok (0, Prot.noAccess) := by
  have hkey := runFrom_enc ops 0
    (by rw [hA]; omega)
    (by
      intro p q hpq
      have hlen : p.length + 1 ≤ ops.length := by
        rw [hpq, List.length_append, List.length_cons]
        omega
      have htk := hpre (p.length + 1) hlen
      have htake : ops.take (p.length + 1) = p ++ [false] := by
        rw [hpq, List.take_append_eq_append_take,
          List.take_of_length_le (by omega)]
        congr 1
        have : p.length + 1 - p.length = 1 := by omega
        rw [this]
        rfl
      rw [htake] at htk
      simp only [List.count_append] at htk
      have hfc : ([false] : List Bool).count false = 1 := by rfl
      have htc : ([false] : List Bool).count true = 0 := by rfl
      rw [hfc, htc] at htk
      omega)
  rw [hA, hR] at hkey
  have henc0 : enc 0 = (0, Prot.noAccess) := by simp [enc]
  have hsub : 0 + N - N = 0 := by omega
  rw [hsub, henc0] at hkey
  rw [run, ← henc0]
  exact hkey

/-- Witness for C2 with one acquire followed by one release. -/
theorem c2_balanced_borrows_witness : run [true, false] = .ok (0, Prot.noAccess) :=
  c2_balanced_borrows [true, false] 1 (by rfl) (by rfl) (by omega)
    (by rw [MAX_eq]; omega)
    (by decide)

/-- C8: a completed or attempted shared acquire panics exactly when the
previously observed REF field is at least MAX, and whenever the observed REF
field is at most MAX (so in particular for every non-panicking acquire), the
fetch-add of 1 leaves the ACC bit unchanged: the counter cannot carry into
the ACC flag before the panic fires. -/
theorem c8_acquire_overflow (st : GState) :
    (acquireE st = .error .overflow ↔ MAX ≤ st.1 &&& REF) ∧
    (st.1 &&& REF ≤ MAX → ((st.1 + 1) % WORD) &&& ACC = st.1 &&& ACC) := by
  constructor
  · constructor
    · intro h
      by_contra hlt
      simp only [acquireE, hlt, if_false] at h
      by_cases h0 : st.1 = 0
      · simp [h0] at h
      · by_cases hac : st.1 &&& ACC ≠ 0
        · simp [h0, hac] at h
        · simp [h0, hac] at h
    · intro h
      simp [acquireE, h]
  · intro h
    rw [REF_eq, Nat.and_pow_two_sub_one_eq_mod, MAX_eq] at h
    rw [ACC_eq, Nat.and_two_pow, Nat.and_two_pow]
    suffices hb : Nat.testBit ((st.1 + 1) % WORD) 63 = Nat.testBit st.1 63 by
      rw [hb]
    rw [Nat.testBit_to_div_mod, Nat.testBit_to_div_mod, decide_eq_decide]
    unfold WORD
    omega

/-- Witness for C8 at the state word ACC + MAX (the cap): the acquire panics
there, and the increment at the cap still leaves the ACC bit unchanged. -/
theorem c8_acquire_overflow_witness :
    (acquireE (ACC + MAX, Prot.readOnly) = .error .overflow ↔
      MAX ≤ (ACC + MAX) &&& REF) ∧
    ((ACC + MAX + 1) % WORD) &&& ACC = (ACC + MAX) &&& ACC :=
  ⟨(c8_acquire_overflow (ACC + MAX, Prot.readOnly)).1,
    (c8_acquire_overflow (ACC + MAX, Prot.readOnly)).2 (by decide)⟩

end Guard

theorem or_eq_zero_iff_parts {a b : Nat} : a ||| b = 0 ↔ a = 0 ∧ b = 0 := by
  constructor
  · intro h
    have ht : ∀ i, a.testBit i = false ∧ b.testBit i = false := by
      intro i
      have hh := congrArg (fun x => Nat.testBit x i) h
      simp only [Nat.testBit_or, Nat.zero_testBit, Bool.or_eq_false_iff] at hh
      exact hh
    constructor
    · exact Nat.eq_of_testBit_eq (fun i => by simp [(ht i).1])
    · exact Nat.eq_of_testBit_eq (fun i => by simp [(ht i).2])
  · rintro ⟨rfl, rfl⟩
    rfl

namespace Vec

/-- Raw state of a guarded vector as the comparison sees it: the backing
buffer of `capacity` elements (each already converted `Into<usize>`, so an
element is a `Nat` below 2^64) and the initialised length `len`.  Entries of
`buf` at indices at or beyond `len` model the uninitialised remainder of the
buffer.  The container invariant `len ≤ capacity` (with `capacity` 0 only for
an empty vector) is carried as a hypothesis by the theorems. -/
structure GVec where
  buf : List Nat
  len : Nat

/-- Capacity of the vector: the length of the backing buffer. -/
def GVec.capacity (a : GVec) : Nat := a.buf.length

/-- Constant `CMP_MIN: usize = 32` (`src/vec.rs:29`, `src/string.rs:24`). -/
def CMP_MIN : Nat := 32

/-- Accumulating fold of `Vec::eq_slice` (`src/vec.rs:39-41`): iterate over
`b.iter().take(a.capacity())`, pairing index `i` with the raw buffer element
`a.as_ptr().add(i).read()`, and or-accumulate the xor of each pair.  The
buffer read at index `i` is in bounds because the iteration is capped at
`capacity = buf.length`, so the zip pairs exactly the elements the loop
visits, in the same order. -/
def eq_fold (a : GVec) (b : List Nat) : Nat :=
  (List.zipWith (fun x y => x ^^^ y) a.buf (b.take a.capacity)).foldl
    (fun d z => d ||| z) 0

/-- Number of fold iterations performed by `Vec::eq_slice` on inputs `a`, `b`:
one iteration per element of `b.iter().take(a.capacity())` that is paired with
a buffer read. -/
def eq_steps (a : GVec) (b : List Nat) : Nat :=
  (List.zipWith (fun x y => x ^^^ y) a.buf (b.take a.capacity)).length

/-- Comparison `Vec::eq_slice` (`src/vec.rs:31-43`): empty capacity
short-circuits to `b.is_empty()`; otherwise the or-accumulated differences,
or-ed with the absolute length mismatch, must be zero.  `String::eq_slice`
(`src/string.rs:26-37`) is the same computation at byte element type. -/
def eq_slice (a : GVec) (b : List Nat) : Bool :=
  if a.capacity = 0 then b.isEmpty
  else (eq_fold a b ||| (max a.len b.length - min a.len b.length)) == 0

theorem foldl_or_eq_zero (l : List Nat) :
    ∀ d : Nat, l.foldl (fun d z => d ||| z) d = 0 ↔ d = 0 ∧ ∀ z ∈ l, z = 0 := by
  induction l with
  | nil => intro d; simp [List.foldl]
  | cons x xs ih =>
    intro d
    simp only [List.foldl, ih (d ||| x), or_eq_zero_iff_parts, List.mem_cons]
    constructor
    · rintro ⟨⟨hd, hx⟩, hxs⟩
      exact ⟨hd, fun z hz => hz.elim (fun he => he ▸ hx) (hxs z)⟩
    · rintro ⟨hd, hall⟩
      exact ⟨⟨hd, hall x (Or.inl rfl)⟩, fun z hz => hall z (Or.inr hz)⟩

theorem eq_fold_zero_iff (a : GVec) (b : List Nat) :
    eq_fold a b = 0 ↔
      ∀ i, i < min a.capacity b.length → a.buf.getD i 0 = b.getD i 0 := by
  rw [eq_fold, foldl_or_eq_zero]
  have hlen : (List.zipWith (fun x y => x ^^^ y) a.buf (b.take a.capacity)).length
      = min a.capacity b.length := by
    rw [List.length_zipWith, List.length_take]
    unfold GVec.capacity
    omega
  constructor
  · rintro ⟨-, hall⟩ i hi
    have hib : i < b.length := by omega
    have hia : i < a.buf.length := by unfold GVec.capacity at hi; omega
    have hit : i < (b.take a.capacity).length := by
      rw [List.length_take]; omega
    have hz := hall ((List.zipWith (fun x y => x ^^^ y) a.buf
      (b.take a.capacity)).get ⟨i, by omega⟩) (List.get_mem _ _ _)
    rw [List.get_eq_getElem, List.getElem_zipWith] at hz
    rw [Nat.xor_eq_zero] at hz
    rw [List.getElem_take] at hz
    rw [List.getD_eq_getElem?_getD, List.getD_eq_getElem?_getD,
      List.getElem?_eq_getElem hia, List.getElem?_eq_getElem hib]
    simpa using hz
  · intro hall
    refine ⟨rfl, fun z hz => ?_⟩
    rw [List.mem_iff_getElem] at hz
    obtain ⟨i, hi, hzi⟩ := hz
    rw [List.getElem_zipWith] at hzi
    rw [hlen] at hi
    have hib : i < b.length := by omega
    have hia : i < a.buf.length := by unfold GVec.capacity at hi; omega
    have := hall i hi
    rw [List.getD_eq_getElem?_getD, List.getD_eq_getElem?_getD,
      List.getElem?_eq_getElem hia, List.getElem?_eq_getElem hib] at this
    simp only [Option.getD_some] at this
    rw [← hzi, List.getElem_take, Nat.xor_eq_zero]
    exact this

/-- C4: under the container invariant (`len ≤ capacity`, and `capacity = 0`
only for an empty vector), `eq_slice a b` returns true exactly when the
lengths agree and every initialised element of `a` equals the corresponding
element of `b` after conversion to usize; elements of the buffer between
`len` and `capacity` cannot influence the result. -/
theorem c4_eq_slice_correct (a : GVec) (b : List Nat)
    (hl : a.len ≤ a.capacity) (hc : a.capacity = 0 → a.len = 0) :
    eq_slice a b = true ↔
      (a.len = b.length ∧ ∀ i, i < a.len → a.buf.getD i 0 = b.getD i 0) := by
  unfold eq_slice
  by_cases hcap : a.capacity = 0
  · have hz := hc hcap
    simp only [hcap, if_true, List.isEmpty_iff_length_eq_zero, hz]
    constructor
    · intro h
      exact ⟨by omega, fun i hi => by omega⟩
    · rintro ⟨h, -⟩
      omega
  · simp only [hcap, if_false, beq_iff_eq, or_eq_zero_iff_parts,
      eq_fold_zero_iff]
    constructor
    · rintro ⟨hfold, hdiff⟩
      have hlen : a.len = b.length := by omega
      refine ⟨hlen, fun i hi => hfold i (by omega)⟩
    · rintro ⟨hlen, hall⟩
      refine ⟨fun i hi => hall i (by omega), by omega⟩

/-- Witness for C4 at a concrete vector and equal slice. -/
theorem c4_eq_slice_correct_witness :
    eq_slice (GVec.mk [1, 2, 3] 3) [1, 2, 3] = true ↔
      ((GVec.mk [1, 2, 3] 3).len = ([1, 2, 3] : List Nat).length ∧
        ∀ i, i < (GVec.mk [1, 2, 3] 3).len →
          (GVec.mk [1, 2, 3] 3).buf.getD i 0 = ([1, 2, 3] : List Nat).getD i 0) :=
  c4_eq_slice_correct (GVec.mk [1, 2, 3] 3) [1, 2, 3] (by decide) (by decide)

theorem eq_steps_eq_min (a : GVec) (b : List Nat) :
    eq_steps a b = min a.capacity b.length := by
  rw [eq_steps, List.length_zipWith, List.length_take]
  unfold GVec.capacity
  omega

/-- Counterexample to C5 as stated: two comparisons with the same value of
`max(capacity, b.len())` (both 100) but different fold-iteration counts
(32 versus 100); both vectors satisfy the container invariant and the
CMP_MIN capacity floor, and neither takes the empty-vs-empty short-circuit.
So the iteration count is not a function of `max(capacity, b.len())`. -/
theorem c5_counterexample :
    max (GVec.mk (List.replicate 32 0) 32).capacity
        (List.replicate 100 (0 : Nat)).length =
      max (GVec.mk (List.replicate 100 0) 100).capacity
        (List.replicate 100 (0 : Nat)).length ∧
    eq_steps (GVec.mk (List.replicate 32 0) 32) (List.replicate 100 0) ≠
      eq_steps (GVec.mk (List.replicate 100 0) 100) (List.replicate 100 0) ∧
    CMP_MIN ≤ (GVec.mk (List.replicate 32 0) 32).capacity ∧
    CMP_MIN ≤ (GVec.mk (List.replicate 100 0) 100).capacity := by
  refine ⟨by decide, ?_, by decide, by decide⟩
  rw [eq_steps_eq_min, eq_steps_eq_min]
  decide

/-- C5 as amended: when the empty-vs-empty short-circuit is not taken, the
number of fold iterations of `eq_slice(a, b)` equals
`min(a.capacity(), b.len())` — so it depends only on the capacity and on b's
length, never on the element values, and in particular for equal-length
inputs it is independent of the position of the first differing element; the
CMP_MIN = 32 capacity floor guarantees at least CMP_MIN iterations exactly
when `b` itself has at least CMP_MIN elements. -/
theorem c5_steps_amended (a : GVec) (b b2 : List Nat) (hcap : 0 < a.capacity) :
    eq_steps a b = min a.capacity b.length ∧
    (b.length = b2.length → eq_steps a b = eq_steps a b2) ∧
    (CMP_MIN ≤ a.capacity → CMP_MIN ≤ b.length → CMP_MIN ≤ eq_steps a b) := by
  refine ⟨eq_steps_eq_min a b, fun hlen => ?_, fun h1 h2 => ?_⟩
  · rw [eq_steps_eq_min, eq_steps_eq_min, hlen]
  · rw [eq_steps_eq_min]
    omega

/-- Witness for the amended C5 at concrete inputs with differing elements. -/
theorem c5_steps_amended_witness :
    eq_steps (GVec.mk (List.replicate 32 5) 32) (List.replicate 40 7) =
      min (GVec.mk (List.replicate 32 5) 32).capacity
        (List.replicate 40 (7 : Nat)).length ∧
    ((List.replicate 40 (7 : Nat)).length = (List.replicate 40 (9 : Nat)).length →
      eq_steps (GVec.mk (List.replicate 32 5) 32) (List.replicate 40 7) =
        eq_steps (GVec.mk (List.replicate 32 5) 32) (List.replicate 40 9)) ∧
    (CMP_MIN ≤ (GVec.mk (List.replicate 32 5) 32).capacity →
      CMP_MIN ≤ (List.replicate 40 (7 : Nat)).length →
      CMP_MIN ≤ eq_steps (GVec.mk (List.replicate 32 5) 32) (List.replicate 40 7)) :=
  c5_steps_amended (GVec.mk (List.replicate 32 5) 32)
    (List.replicate 40 7) (List.replicate 40 9) (by decide)

end Vec

namespace Alloc

/-- Modelled from the spec: the free helpers `page_align` and `alloc_align`
consumed by `src/alloc.rs` live in a part of the repository that is not under
`src/`; per the data model (page size `P`, granularity `G`, both powers of
two) they round an offset up to the next multiple of the respective unit.
`alignTo a n` is that rounding for unit `a`. -/
def alignTo (a n : Nat) : Nat := ((n + a - 1) / a) * a

/-- Constant `GUARD_PAGES: usize = 1` (`src/alloc.rs:10`). -/
def GUARD_PAGES : Nat := 1

/-- Helper `Sensitive::guard_size()` (`src/alloc.rs:12-14`): one guard band,
`GUARD_PAGES * page_size()`, for page size `P`. -/
def guard_size (P : Nat) : Nat := GUARD_PAGES * P

/-- Helper `Sensitive::outer_size(size)` (`src/alloc.rs:16-18`):
`alloc_align(size + 2 * guard_size())` for page size `P`, granularity `G`. -/
def outer_size (P G size : Nat) : Nat := alignTo G (size + 2 * guard_size P)

/-- Helper `Sensitive::inner_size(size)` (`src/alloc.rs:20-22`):
`outer_size(size) - 2 * guard_size()`. -/
def inner_size (P G size : Nat) : Nat := outer_size P G size - 2 * guard_size P

/-- Success path of `Sensitive::allocate` (`src/alloc.rs:26-51`) for an OS
reservation placed at address `addr`: reject `layout.align() >= page_size()`;
otherwise the returned pointer is `addr + guard_size()` and the returned
usable length is `inner_size(layout.size())`.  The OS reserve, the best-effort
pin and the protect-to-read-write are modelled as succeeding (their failures
surface as `AllocError` and are not the subject of the claims). -/
def allocate (P G addr align size : Nat) : Option (Nat × Nat) :=
  if P ≤ align then none
  else some (addr + guard_size P, inner_size P G size)

/-- Write of `volatile_set_memory(mem + start, 0, len)` on an interior byte
list (`src/auxiliary.rs` `zero`): the `len` bytes from `start` are replaced by
zeroes, the rest of the buffer is untouched. -/
def zeroRange (start len : Nat) (mem : List Nat) : List Nat :=
  mem.take start ++ List.replicate len 0 ++ mem.drop (start + len)

/-- Effect of `Sensitive::deallocate(ptr, layout)` (`src/alloc.rs:57-77`) on
the interior bytes: when `layout.size() > 0`, the interior is made read-write
(`protect` over `page_align(layout.size())` bytes, modelled as succeeding)
and exactly `layout.size()` bytes starting at the returned pointer are
volatile-zeroed (`zero(ptr.as_ptr(), layout.size())`) before the frame is
released. -/
def deallocate (size : Nat) (mem : List Nat) : List Nat :=
  if 0 < size then zeroRange 0 size mem else mem

/-- Success path of `Sensitive::shrink(ptr, old, new)` (`src/alloc.rs:79-111`)
on the interior bytes: reject `new.align() >= page_size()`; with
`inner_old = page_align(old.size())` and `inner_new = page_align(new.size())`,
when at least one page is freed the tail plus the old trailing guard band
(`inner_old - inner_new + guard_size()` bytes from offset `inner_new`) is
volatile-zeroed, then uncommitted and re-guarded (protection changes do not
alter the modelled byte contents).  The result is the unchanged input pointer
(offset 0 from the old base) and the length `inner_new`. -/
def shrink (P align oldSize newSize : Nat) (mem : List Nat) :
    Option (Nat × Nat × List Nat) :=
  if P ≤ align then none
  else
    let innerOld := alignTo P oldSize
    let innerNew := alignTo P newSize
    if P ≤ innerOld - innerNew then
      some (0, innerNew, zeroRange innerNew (innerOld - innerNew + guard_size P) mem)
    else
      some (0, innerNew, mem)

theorem le_alignTo {a : Nat} (ha : 0 < a) (n : Nat) : n ≤ alignTo a n := by
  unfold alignTo
  have h1 := Nat.div_add_mod (n + a - 1) a
  have h2 : (n + a - 1) % a < a := Nat.mod_lt _ ha
  have h3 : a * ((n + a - 1) / a) = ((n + a - 1) / a) * a := Nat.mul_comm _ _
  omega

theorem alignTo_mono {a m n : Nat} (h : m ≤ n) : alignTo a m ≤ alignTo a n := by
  unfold alignTo
  exact Nat.mul_le_mul_right a (Nat.div_le_div_right (by omega))

theorem zeroRange_length {start len : Nat} {mem : List Nat}
    (h : start + len ≤ mem.length) :
    (zeroRange start len mem).length = mem.length := by
  unfold zeroRange
  rw [List.length_append, List.length_append, List.length_take,
    List.length_replicate, List.length_drop]
  omega

theorem take_zeroRange {start len : Nat} {mem : List Nat} (n : Nat)
    (hn : n ≤ start) (hstart : start ≤ mem.length) :
    (zeroRange start len mem).take n = mem.take n := by
  unfold zeroRange
  rw [List.append_assoc, List.take_append_eq_append_take, List.length_take]
  have hmin : min start mem.length = start := by omega
  rw [hmin]
  have hz : n - start = 0 := by omega
  rw [hz, List.take_zero, List.append_nil, List.take_take]
  have hm2 : min n start = n := by omega
  rw [hm2]

/-- Counterexample to C3 as stated: on a platform with `P = G = 4096`, a
1-byte layout has usable interior length `inner_size(1) = 4096`; fill all
4096 usable bytes with 0x55 (= 85) and deallocate with the original layout:
the byte at interior offset 1 still reads 85, not 0 — only `layout.size()`
bytes are zeroed, not all usable bytes. -/
theorem c3_counterexample :
    inner_size 4096 4096 1 = 4096 ∧
    (List.replicate 4096 85).length = inner_size 4096 4096 1 ∧
    (deallocate 1 (List.replicate 4096 85)).getD 1 0 = 85 ∧
    (85 : Nat) ≠ 0 := by
  refine ⟨by decide, by rw [List.length_replicate]; decide, ?_, by decide⟩
  have h1 : deallocate 1 (List.replicate 4096 85) =
      0 :: List.replicate 4095 85 := by
    rw [deallocate, if_pos (by omega), zeroRange, List.take_zero,
      List.nil_append, List.drop_replicate, List.replicate_one,
      List.singleton_append]
  rw [h1, List.getD_cons_succ, List.getD_eq_getElem?_getD,
    List.getElem?_replicate_of_lt (by omega)]
  rfl

/-- C3 as amended: `Sensitive::deallocate(ptr, layout)` volatile-zeroes
exactly the first `layout.size()` interior bytes before the range is
released, so no non-zero byte remains in the requested range
`[ptr, ptr + layout.size())`; interior bytes at offsets in
`[layout.size(), L)` for usable length `L = inner_size(layout.size())` are
left untouched. -/
theorem c3_deallocate_zeroes_requested (size : Nat) (mem : List Nat)
    (hs : size ≤ mem.length) :
    (∀ i, i < size → (deallocate size mem).getD i 1 = 0) ∧
    (deallocate size mem).drop size = mem.drop size ∧
    (deallocate size mem).length = mem.length := by
  by_cases h0 : 0 < size
  · simp only [deallocate, h0, if_true, zeroRange, List.take_zero,
      List.nil_append, Nat.zero_add]
    refine ⟨fun i hi => ?_, ?_, ?_⟩
    · rw [List.getD_eq_getElem?_getD, List.getElem?_append]
      simp only [List.length_replicate, hi, if_true,
        List.getElem?_replicate_of_lt hi]
      rfl
    · exact List.drop_left' (List.length_replicate size 0)
    · rw [List.length_append, List.length_replicate, List.length_drop]
      omega
  · have hd : deallocate size mem = mem := by simp [deallocate, h0]
    rw [hd]
    exact ⟨fun i hi => by omega, rfl, rfl⟩

/-- Witness for the amended C3 at a concrete non-empty allocation. -/
theorem c3_deallocate_zeroes_requested_witness :
    (∀ i, i < 3 → (deallocate 3 [9, 9, 9, 9, 9]).getD i 1 = 0) ∧
    (deallocate 3 [9, 9, 9, 9, 9]).drop 3 = ([9, 9, 9, 9, 9] : List Nat).drop 3 ∧
    (deallocate 3 [9, 9, 9, 9, 9]).length = ([9, 9, 9, 9, 9] : List Nat).length :=
  c3_deallocate_zeroes_requested 3 [9, 9, 9, 9, 9] (by decide)

/-- C6: every successful in-place `Sensitive::shrink(ptr, old, new)` (with
`new.size < old.size` and an accepted `new.align`) returns the input pointer
unchanged (offset 0) with length `page_align(new.size)`, and the retained
prefix `[ptr, ptr + new.size)` of the interior bytes is unchanged by the
operation. -/
theorem c6_shrink_keeps_pointer_and_prefix (P align oldSize newSize : Nat)
    (mem : List Nat) (hP : 0 < P) (hal : align < P) (hlt : newSize < oldSize)
    (hmem : alignTo P oldSize + guard_size P ≤ mem.length) :
    ∃ m2, shrink P align oldSize newSize mem = some (0, alignTo P newSize, m2) ∧
      m2.take newSize = mem.take newSize ∧
      m2.length = mem.length := by
  have hns : ¬ P ≤ align := by omega
  have hmono : alignTo P newSize ≤ alignTo P oldSize := alignTo_mono (by omega)
  have hnewle : newSize ≤ alignTo P newSize := le_alignTo hP newSize
  have holdle : alignTo P oldSize ≤ mem.length := by
    have : 0 < guard_size P := by unfold guard_size GUARD_PAGES; omega
    omega
  simp only [shrink, hns, if_false]
  by_cases hdiff : P ≤ alignTo P oldSize - alignTo P newSize
  · simp only [hdiff, if_true]
    refine ⟨_, rfl, ?_, ?_⟩
    · exact take_zeroRange newSize (by omega) (by omega)
    · apply zeroRange_length
      omega
  · simp only [hdiff, if_false]
    exact ⟨mem, rfl, rfl, rfl⟩

/-- Witness for C6 at a concrete one-page shrink with `P = 4096`. -/
theorem c6_shrink_keeps_pointer_and_prefix_witness :
    ∃ m2, shrink 4096 1 8192 4096 (List.replicate 12288 9) =
        some (0, alignTo 4096 4096, m2) ∧
      m2.take 4096 = (List.replicate 12288 (9 : Nat)).take 4096 ∧
      m2.length = (List.replicate 12288 (9 : Nat)).length :=
  c6_shrink_keeps_pointer_and_prefix 4096 1 8192 4096 (List.replicate 12288 9)
    (by decide) (by decide) (by decide)
    (by rw [List.length_replicate]; decide)

/-- Counterexample to C7 as stated: on a platform with `P = 4096` and
granularity `G = 65536` (allocation granularity exceeding twice the page
size), a zero-sized layout yields usable interior length
`inner_size(0) = align_G(2 P) - 2 P = 57344`, not zero. -/
theorem c7_counterexample :
    allocate 4096 65536 65536 1 0 = some (69632, 57344) ∧
    inner_size 4096 65536 0 = 57344 ∧
    (57344 : Nat) ≠ 0 := by
  refine ⟨?_, by decide, by decide⟩
  decide

/-- C7 as amended: for every zero-sized layout with a supported alignment
(`align < P`), `Sensitive::allocate` succeeds and returns a pointer that is
non-null and page-aligned, bracketed by the reserved guard frame (the outer
reservation contains the two guard bands); the returned usable length is
`inner_size(0) = align_G(2 P) - 2 P`, which is zero exactly when `G` divides
`2 P` — in particular on every platform with `G = P` or `G = 2 P` — but is
positive when the allocation granularity exceeds twice the page size. -/
theorem c7_allocate_zero_sized (P G addr align : Nat) (hP : 0 < P) (hG : 0 < G)
    (haddr : P ∣ addr) (hal : align < P) :
    allocate P G addr align 0 = some (addr + guard_size P, inner_size P G 0) ∧
    0 < addr + guard_size P ∧
    P ∣ (addr + guard_size P) ∧
    2 * guard_size P ≤ outer_size P G 0 ∧
    (G ∣ 2 * P → inner_size P G 0 = 0) := by
  have hgs : guard_size P = P := by unfold guard_size GUARD_PAGES; omega
  have hns : ¬ P ≤ align := by omega
  refine ⟨by simp [allocate, hns], by omega, ?_, ?_, ?_⟩
  · rw [hgs]
    exact Nat.dvd_add haddr (Nat.dvd_refl P)
  · unfold outer_size
    have := le_alignTo hG (0 + 2 * guard_size P)
    omega
  · intro hdvd
    unfold inner_size outer_size alignTo
    rw [hgs]
    obtain ⟨k, hk⟩ := hdvd
    rw [Nat.zero_add, hk]
    have hdivk : (G * k + G - 1) / G = k := by
      have hk0 : G * k + G - 1 = (G - 1) + G * k := by omega
      rw [hk0, Nat.add_mul_div_left _ _ hG, Nat.div_eq_of_lt (by omega)]
      omega
    rw [hdivk]
    have hcomm : k * G = G * k := Nat.mul_comm k G
    omega

/-- Witness for the amended C7 on a platform with `G = P = 4096` and the
reservation at a concrete page-aligned address. -/
theorem c7_allocate_zero_sized_witness :
    allocate 4096 4096 8192 1 0 = some (8192 + guard_size 4096, inner_size 4096 4096 0) ∧
    0 < 8192 + guard_size 4096 ∧
    4096 ∣ (8192 + guard_size 4096) ∧
    2 * guard_size 4096 ≤ outer_size 4096 4096 0 ∧
    (4096 ∣ 2 * 4096 → inner_size 4096 4096 0 = 0) :=
  c7_allocate_zero_sized 4096 4096 8192 1 (by decide) (by decide)
    (by decide) (by decide)

end Alloc

namespace Pages

/-- Wrapping 64-bit subtraction as performed by a release-build `usize`
subtraction: `a - b` modulo the word, defined for `b` below the word size. -/
def wsub (a b : Nat) : Nat := (a + WORD - b % WORD) % WORD

/-- Range view `Pages::pages(range)` (`src/pages.rs:239-249`): when
`range.start < len ∧ range.end ≤ len` (for a view of `n` pages of size `P`),
returns the page offset `range.start * P` and the byte size
`(range.end - range.start - 1) * P`, with release-build wrapping arithmetic;
otherwise `None`. -/
def pagesView (P n s e : Nat) : Option (Nat × Nat) :=
  if s < n ∧ e ≤ n then
    some ((s * P) % WORD, (wsub (wsub e s) 1 * P) % WORD)
  else none

/-- Range view `Allocation::pages(range)` (`src/pages.rs:401-411`): when
`range.start < len ∧ range.end ≤ len`, returns the page offset
`range.start * P` and the byte size `(range.end - range.start) * P`;
otherwise `None`. -/
def allocationPages (P n s e : Nat) : Option (Nat × Nat) :=
  if s < n ∧ e ≤ n then
    some ((s * P) % WORD, (wsub e s * P) % WORD)
  else none

/-- C10 evaluation at the failing inputs: for a two-page view with
`P = 4096`, `Pages::pages(0..2)` returns byte size 4096 where
`Allocation::pages(0..2)` returns 8192 — one page short — and
`Pages::pages(1..1)` underflows the size computation `end - start - 1`,
wrapping to `2^64 - 4096` bytes instead of 0. -/
theorem c10_pages_eval :
    pagesView 4096 2 0 2 = some (0, 4096) ∧
    allocationPages 4096 2 0 2 = some (0, 8192) ∧
    pagesView 4096 2 1 1 = some (4096, WORD - 4096) ∧
    allocationPages 4096 2 1 1 = some (4096, 0) := by
  refine ⟨?_, ?_, ?_, ?_⟩ <;> decide

end Pages

namespace Str

/-- Byte length `char::len_utf8()` of a scalar value (Rust standard library
semantics, by code-point range). -/
def utf8Len (c : Nat) : Nat :=
  if c < 0x80 then 1
  else if c < 0x800 then 2
  else if c < 0x10000 then 3
  else 4

/-- UTF-8 encoding `char::encode_utf8()` of a scalar value (Rust standard
library semantics, by code-point range). -/
def encodeChar (c : Nat) : List Nat :=
  if c < 0x80 then [c]
  else if c < 0x800 then
    [0xC0 ||| (c >>> 6), 0x80 ||| (c &&& 0x3F)]
  else if c < 0x10000 then
    [0xE0 ||| (c >>> 12), 0x80 ||| ((c >>> 6) &&& 0x3F), 0x80 ||| (c &&& 0x3F)]
  else
    [0xF0 ||| (c >>> 18), 0x80 ||| ((c >>> 12) &&& 0x3F),
      0x80 ||| ((c >>> 6) &&& 0x3F), 0x80 ||| (c &&& 0x3F)]

/-- UTF-8 byte sequence of a list of scalar values. -/
def encodeStr : List Nat → List Nat
  | [] => []
  | c :: rest => encodeChar c ++ encodeStr rest

/-- State of a guarded normalized string borrowed mutably: `data` is the
sequence of scalar values whose UTF-8 encoding occupies the first `len`
buffer bytes, `spare` the buffer bytes between `len` and the capacity.
The byte buffer is `encodeStr data ++ spare`. -/
structure NStr where
  data : List Nat
  spare : List Nat

/-- Initialised bytes of the string (offsets below `len`). -/
def NStr.bytes (s : NStr) : List Nat := encodeStr s.data

/-- Length `len` of the string in bytes. -/
def NStr.len (s : NStr) : Nat := s.bytes.length

/-- Whole buffer: initialised bytes followed by the spare region. -/
def NStr.buffer (s : NStr) : List Nat := s.bytes ++ s.spare

/-- Operation `RefMut::pop` (`src/string.rs:194-199`): take the last scalar of
the valid UTF-8 byte sequence (`self.chars().rev().next()` of the Rust
standard library decoder, which on the always-valid buffer is the last scalar
of `data`), retreat `len` by its `len_utf8()`, and volatile-zero the freed
bytes (`zero(ptr + len, len_utf8)`), which become the front of the spare
region. -/
def pop (s : NStr) : Option (Nat × NStr) :=
  match s.data.getLast? with
  | none => none
  | some c =>
    some (c, NStr.mk s.data.dropLast (List.replicate (utf8Len c) 0 ++ s.spare))

/-- Operation `RefMut::push` (`src/string.rs:173-179`) for the canonical
decomposition function `d` (`decompose_canonical` of the external
unicode-normalization collaborator, abstracted as a parameter): for each
scalar of the decomposition, reserve space, encode it into the spare region
at `len` (`encode_utf8` into `spare_capacity_mut`), and advance `len`. -/
def push (d : Nat → List Nat) (c : Nat) (s : NStr) : NStr :=
  NStr.mk (s.data ++ d c) (s.spare.drop (encodeStr (d c)).length)

theorem encodeChar_length (c : Nat) : (encodeChar c).length = utf8Len c := by
  unfold encodeChar utf8Len
  by_cases h1 : c < 0x80
  · simp [h1]
  · by_cases h2 : c < 0x800
    · simp [h1, h2]
    · by_cases h3 : c < 0x10000
      · simp [h1, h2, h3]
      · simp [h1, h2, h3]

theorem encodeStr_append (a b : List Nat) :
    encodeStr (a ++ b) = encodeStr a ++ encodeStr b := by
  induction a with
  | nil => simp [encodeStr]
  | cons c rest ih =>
    simp only [List.cons_append, encodeStr, List.append_eq, ih,
      List.append_assoc]

/-- C9: for every non-empty normalized string mutably borrowed (every scalar
of `data` is stable under the canonical decomposition `d`), `pop()` returns
`Some c` where `c` is the last scalar of the byte sequence, decreases `len`
by exactly `utf8Len c` while zeroing the removed bytes, and a subsequent
`push(c)` restores the byte sequence (and the whole buffer) exactly. -/
theorem c9_pop_push_roundtrip (d : Nat → List Nat) (s : NStr)
    (hne : s.data ≠ []) (hnorm : ∀ c ∈ s.data, d c = [c]) :
    ∃ c s2, pop s = some (c, s2) ∧
      s.data.getLast? = some c ∧
      s2.len = s.len - utf8Len c ∧
      utf8Len c ≤ s.len ∧
      (s2.buffer.drop s2.len).take (utf8Len c) = List.replicate (utf8Len c) 0 ∧
      (push d c s2).bytes = s.bytes ∧
      (push d c s2).buffer = s.buffer := by
  have hlast : s.data.getLast? = some (s.data.getLast hne) :=
    List.getLast?_eq_getLast s.data hne
  set c := s.data.getLast hne with hc
  have hsplit : s.data.dropLast ++ [c] = s.data :=
    List.dropLast_concat_getLast hne
  have hone : encodeStr [c] = encodeChar c := by simp [encodeStr]
  have hbytes : encodeStr s.data.dropLast ++ encodeChar c = encodeStr s.data := by
    have hs2 := encodeStr_append s.data.dropLast [c]
    rw [hsplit] at hs2
    rw [hs2, hone]
  have hdc : d c = [c] := hnorm c (hsplit ▸ List.mem_append_right _ (by simp))
  have hencdc : encodeStr (d c) = encodeChar c := by
    rw [hdc, hone]
  refine ⟨c, NStr.mk s.data.dropLast
    (List.replicate (utf8Len c) 0 ++ s.spare), ?_, hlast, ?_, ?_, ?_, ?_, ?_⟩
  · rw [pop, hlast]
  · show (encodeStr s.data.dropLast).length = (encodeStr s.data).length - utf8Len c
    rw [← hbytes, List.length_append, encodeChar_length]
    omega
  · show utf8Len c ≤ (encodeStr s.data).length
    rw [← hbytes, List.length_append, encodeChar_length]
    omega
  · show ((encodeStr s.data.dropLast ++ (List.replicate (utf8Len c) 0 ++ s.spare)).drop
        (encodeStr s.data.dropLast).length).take (utf8Len c) =
      List.replicate (utf8Len c) 0
    rw [List.drop_left, List.take_left' (List.length_replicate _ _)]
  · show encodeStr (s.data.dropLast ++ d c) = encodeStr s.data
    rw [hdc, encodeStr_append, hone, hbytes]
  · show encodeStr (s.data.dropLast ++ d c) ++
        (List.replicate (utf8Len c) 0 ++ s.spare).drop (encodeStr (d c)).length =
      encodeStr s.data ++ s.spare
    rw [hencdc, encodeChar_length,
      List.drop_left' (List.length_replicate _ _), hdc, encodeStr_append,
      hone, hbytes]

/-- Witness for C9 at the concrete one-scalar string with a non-empty spare
region, with the identity decomposition (all scalars stable). -/
theorem c9_pop_push_roundtrip_witness :
    ∃ c s2, pop (NStr.mk [65] [7]) = some (c, s2) ∧
      (NStr.mk [65] [7]).data.getLast? = some c ∧
      s2.len = (NStr.mk [65] [7]).len - utf8Len c ∧
      utf8Len c ≤ (NStr.mk [65] [7]).len ∧
      (s2.buffer.drop s2.len).take (utf8Len c) = List.replicate (utf8Len c) 0 ∧
      (push (fun x => [x]) c s2).bytes = (NStr.mk [65] [7]).bytes ∧
      (push (fun x => [x]) c s2).buffer = (NStr.mk [65] [7]).buffer :=
  c9_pop_push_roundtrip (fun x => [x]) (NStr.mk [65] [7]) (by decide)
    (by intro c hc; simp at hc; simp [hc])

end Str

end Sensitive
